import Mathlib

/-!
Shallow embedding of the relevance-search core of `src/lib/search.js`
(`scoreRelevance`, `extractExcerpt`, `highlightTerms`) and of the keyword
ranking pipeline `doKeywordSearch` from the page component, together with
proofs of the specification claims about them.

Strings are modelled as `List Char`.  JavaScript `String.prototype` helpers
(`includes`, `lastIndexOf`, `split`, regex match counting) are embedded as
executable functions on `List Char`.  `new RegExp(term, 'gi')` applied to a
term free of regex metacharacters matches exactly the literal term,
case-insensitively, scanning left to right without overlap; the embedding
(`countOcc`) implements that literal semantics.  Case folding is modelled by
`Char.toLower` (the ASCII fragment of JavaScript `toLowerCase`).
-/

/-- Characters matched by the JavaScript regex class `\s` (ASCII fragment). -/
def jsWhite (c : Char) : Bool :=
  c = ' ' || c = '\t' || c = '\n' || c = '\r' || c = '\x0b' || c = '\x0c'

/-- One step of `jsSplitWs`, consuming one character from the right.
The Boolean records whether the character to the right was whitespace,
so that a run of whitespace opens only one new field. -/
def splitStep (c : Char) (st : List (List Char) × Bool) : List (List Char) × Bool :=
  if jsWhite c then ((if st.2 then st.1 else [] :: st.1), true)
  else
    match st.1 with
    | [] => ([[c]], false)
    | t :: rest => ((c :: t) :: rest, false)

/-- JavaScript `s.split(/\s+/)`: fields separated by maximal whitespace runs;
a leading (resp. trailing) whitespace run contributes a leading (resp.
trailing) empty field, and the empty string splits to `[""]`. -/
def jsSplitWs (l : List Char) : List (List Char) :=
  (l.foldr splitStep ([[]], false)).1

/-- Query tokenizer of `scoreRelevance` and `extractExcerpt`
(`query.toLowerCase().split(/\s+/).filter(t => t.length > 1)`). -/
def tokenize (query : List Char) : List (List Char) :=
  (jsSplitWs (query.map Char.toLower)).filter (fun t => 1 < t.length)

/-- JavaScript `hay.includes(sub)`: `sub` occurs contiguously in `hay`. -/
def jsIncludes (hay sub : List Char) : Bool := decide (sub <:+: hay)

/-- Fuel-indexed match counter: number of matches of the literal pattern
`pat` in the text, scanning left to right, skipping past each match
(JavaScript `text.match(new RegExp(pat, 'gi')).length` for a metacharacter-free
`pat`, with `null` counted as `0`).  The fuel only forces termination; every
caller supplies fuel exceeding the text length, which is always enough
because each step consumes at least one character. -/
def countOccF (pat : List Char) : Nat → List Char → Nat
  | 0, _ => 0
  | _ + 1, [] => 0
  | fuel + 1, c :: cs =>
    if pat.isPrefixOf (c :: cs) then 1 + countOccF pat fuel (cs.drop (pat.length - 1))
    else countOccF pat fuel cs

/-- Number of left-to-right non-overlapping matches of the literal pattern
`pat` in `text`. -/
def countOcc (pat text : List Char) : Nat := countOccF pat (text.length + 1) text

/-- A transcript record as read by the search core: `video.title || ''`,
`video.description || ''`, `video.transcript || ''` (an absent field is the
empty string). -/
structure Video where
  title : List Char
  description : List Char
  transcript : List Char

deriving instance DecidableEq for Video

/-- Per-term contribution of the scoring loop body of `scoreRelevance`:
`+5` for a title hit, `+2` for a description hit, plus the transcript match
count capped at `20`.  All three texts are already lower-cased. -/
def termScore (title desc text term : List Char) : Nat :=
  (if jsIncludes title term then 5 else 0)
  + (if jsIncludes desc term then 2 else 0)
  + min (countOcc term text) 20

/-- `scoreRelevance(video, query)` from `src/lib/search.js`:
`0` for the empty query; otherwise the per-term contributions over the
tokenized query plus `+15` when the lower-cased query occurs verbatim in the
transcript and `+25` when it occurs verbatim in the title. -/
def scoreRelevance (v : Video) (query : List Char) : Nat :=
  if query = [] then 0
  else
    (tokenize query).foldl
      (fun s term =>
        s + termScore (v.title.map Char.toLower) (v.description.map Char.toLower)
              (v.transcript.map Char.toLower) term) 0
    + (if jsIncludes (v.transcript.map Char.toLower) (query.map Char.toLower) then 15 else 0)
    + (if jsIncludes (v.title.map Char.toLower) (query.map Char.toLower) then 25 else 0)

/-- A term is safe to embed in a regex pattern as-is: it contains none of
the JavaScript regex syntax characters.  On such terms
`new RegExp(term, 'gi')` is well-formed and matches exactly the literal
term; `scoreRelevance` and `extractExcerpt` build their patterns without
escaping, so only such terms behave as literal text there. -/
def regexSafe (t : List Char) : Bool :=
  t.all (fun c =>
    !(c = '\\' || c = '^' || c = '$' || c = '.' || c = '|' || c = '?' || c = '*'
      || c = '+' || c = '(' || c = ')' || c = '[' || c = ']' || c = '\x7b' || c = '\x7d'))

/-- The ellipsis marker `'...'` used by `extractExcerpt`. -/
def dots : List Char := ['.', '.', '.']

/-- Term-occurrence total of one candidate window of `extractExcerpt`:
the window is `lower.slice(i, i + 350)` and each term contributes its
(uncapped) match count. -/
def windowScore (lower : List Char) (terms : List (List Char)) (i : Nat) : Nat :=
  terms.foldl (fun s t => s + countOcc t ((lower.drop i).take 350)) 0

/-- Fuel-indexed sliding-window loop of `extractExcerpt`
(`for (let i = 0; i < lower.length - 100; i += step)` with `step = 30`):
tracks the first window start with the strictly highest score.  The
subtraction is truncated, matching the JavaScript loop, which does not run
when `lower.length ≤ 100`.  The fuel only forces termination; the caller
supplies fuel exceeding the iteration count. -/
def bestPosF (lower : List Char) (terms : List (List Char)) :
    Nat → Nat → Nat → Nat → Nat
  | 0, _, bPos, _ => bPos
  | fuel + 1, i, bPos, bScore =>
    if i < lower.length - 100 then
      (if bScore < windowScore lower terms i then
        bestPosF lower terms fuel (i + 30) i (windowScore lower terms i)
      else
        bestPosF lower terms fuel (i + 30) bPos bScore)
    else bPos

/-- Start position of the densest window (`bestPos` in `extractExcerpt`). -/
def bestPos (lower : List Char) (terms : List (List Char)) : Nat :=
  bestPosF lower terms (lower.length + 1) 0 0 0

/-- JavaScript `l.lastIndexOf(' ')`: index of the last space, `-1` if none. -/
def lastSpaceIdx : List Char → Int
  | [] => -1
  | c :: cs =>
    let r := lastSpaceIdx cs
    if 0 ≤ r then r + 1 else if c = ' ' then 0 else -1

/-- `extractExcerpt(text, query, maxLen)` from `src/lib/search.js`, at
`maxLen = 350` (both call sites in the repository use the default).
`Math.max(0, text.lastIndexOf(' ', bestPos) + 1)` is
`(lastSpaceIdx (text.take (bestPos + 1)) + 1).toNat`, since
`lastIndexOf(' ', i)` searches only the first `i + 1` characters.  The
trailing-word trim `lastSpace > maxLen * 0.7` compares against the IEEE
double `350 * 0.7 = 244.99999999999997`, so it holds exactly when
`245 ≤ lastSpace`. -/
def extractExcerpt (text query : List Char) : List Char :=
  if text = [] then []
  else if query = [] then
    text.take 350 ++ (if 350 < text.length then dots else [])
  else
    let lower := text.map Char.toLower
    let terms := tokenize query
    let bp := bestPos lower terms
    let start := (lastSpaceIdx (text.take (bp + 1)) + 1).toNat
    let ex := (text.drop start).take 350
    let ls := lastSpaceIdx ex
    let ex2 := if 245 ≤ ls then ex.take ls.toNat else ex
    (if 0 < start then dots else []) ++ ex2 ++ (if start + 350 < text.length then dots else [])

/-- The adjusted window start chosen by `extractExcerpt` on the main path
(non-empty text and query): the densest window start moved back to just
after the preceding space. -/
def excerptStart (text query : List Char) : Nat :=
  (lastSpaceIdx (text.take (bestPos (text.map Char.toLower) (tokenize query) + 1)) + 1).toNat

/-- The excerpt body chosen by `extractExcerpt` on the main path, before the
ellipsis markers are attached: the 350-character window at `excerptStart`,
trimmed at its last space when that space falls at index `245` or later. -/
def excerptCore (text query : List Char) : List Char :=
  let ex := (text.drop (excerptStart text query)).take 350
  if 245 ≤ lastSpaceIdx ex then ex.take (lastSpaceIdx ex).toNat else ex

/-- One fragment of `highlightTerms`: a slice of the input text plus its
highlight flag. -/
structure Span where
  text : List Char
  highlight : Bool

deriving instance DecidableEq for Span

/-- Query terms of `highlightTerms`
(`query.split(/\s+/).filter(t => t.length > 1)` — not lower-cased; the
regex `'i'` flag makes the matching case-insensitive). -/
def termsOf (query : List Char) : List (List Char) :=
  (jsSplitWs query).filter (fun t => 1 < t.length)

/-- First term (in pattern order) matching at the head of `l`,
case-insensitively: the leftmost-alternative semantics of the alternation
regex `(term1|term2|...)` built by `highlightTerms` (every term is escaped
there, so each alternative matches its literal text). -/
def findTerm (terms : List (List Char)) (l : List Char) : Option (List Char) :=
  terms.find? (fun t => (t.map Char.toLower).isPrefixOf (l.map Char.toLower))

/-- Fuel-indexed capturing split (`text.split(regex)` with the capture group
retaining matched delimiters): alternating unmatched gaps and matched
slices, in order, both taken verbatim from the input text.  `acc` holds the
current gap, reversed.  The fuel only forces termination; callers supply
fuel exceeding the text length, which is always enough because every term
is non-empty. -/
def splitCaptureF (terms : List (List Char)) : Nat → List Char → List Char → List (List Char)
  | 0, acc, l => [acc.reverse ++ l]
  | _ + 1, acc, [] => [acc.reverse]
  | fuel + 1, acc, c :: cs =>
    match findTerm terms (c :: cs) with
    | some t =>
      acc.reverse :: (c :: cs).take t.length
        :: splitCaptureF terms fuel [] ((c :: cs).drop t.length)
    | none => splitCaptureF terms fuel (c :: acc) cs

/-- Offset and length of the first term match in `l`, if any: the search
step of the `'g'`-flagged regex. -/
def scanMatch (terms : List (List Char)) : List Char → Option (Nat × Nat)
  | [] => none
  | c :: cs =>
    match findTerm terms (c :: cs) with
    | some t => some (0, t.length)
    | none => (scanMatch terms cs).map (fun pr => (pr.1 + 1, pr.2))

/-- JavaScript `regex.test(part)` for the shared `'g'`-flagged regex of
`highlightTerms`: the search starts at the mutable `lastIndex`; on success
`lastIndex` becomes the match end, on failure it resets to `0`. -/
def gTest (terms : List (List Char)) (part : List Char) (lastIdx : Nat) : Bool × Nat :=
  match scanMatch terms (part.drop lastIdx) with
  | some pr => (true, lastIdx + pr.1 + pr.2)
  | none => (false, 0)

/-- The `parts.map(...)` step of `highlightTerms`, with the regex's mutable
`lastIndex` threaded through the stateful `regex.test` calls.  A fragment is
highlighted when the stateful test succeeds or when it case-insensitively
equals some term verbatim. -/
def labelParts (terms : List (List Char)) : List (List Char) → Nat → List Span
  | [], _ => []
  | p :: ps, li =>
    ⟨p, (gTest terms p li).1
        || terms.any (fun t => p.map Char.toLower == t.map Char.toLower)⟩
      :: labelParts terms ps (gTest terms p li).2

/-- `highlightTerms(text, query)` from `src/lib/search.js`: split the text
on the escaped-alternation regex, keeping the matched delimiters, and label
every fragment. -/
def highlightTerms (text query : List Char) : List Span :=
  if text = [] ∨ query = [] then [⟨text, false⟩]
  else
    let terms := termsOf query
    if terms = [] then [⟨text, false⟩]
    else labelParts terms (splitCaptureF terms (text.length + 1) [] text) 0

/-- A document joined with its score and excerpt (`{...v, score, excerpt}`). -/
structure Scored where
  video : Video
  score : Nat
  excerpt : List Char

deriving instance DecidableEq for Scored

/-- The keyword ranking pipeline `doKeywordSearch` from the page component:
score and excerpt every document, drop the score-`0` ones, sort by score
descending (JavaScript `Array.prototype.sort` is stable; the comparator
`(a, b) => b.score - a.score` orders `a` before `b` when
`b.score ≤ a.score`), and keep the first `25`.  The surrounding UI-state
updates and the blank-query early return are omitted: they do not change
the result list this function produces. -/
def doKeywordSearch (videos : List Video) (query : List Char) : List Scored :=
  ((((videos.map
        (fun v => ⟨v, scoreRelevance v query, extractExcerpt v.transcript query⟩))
      |>.filter (fun s => 0 < s.score))
      |>.mergeSort (fun a b => decide (b.score ≤ a.score)))
      |>.take 25)

/-- Character list of a string literal. -/
def strL (s : String) : List Char := s.toList

/-- The fragment case-insensitively equals one of the query terms. -/
def matchesSomeTerm (terms : List (List Char)) (p : List Char) : Prop :=
  ∃ t ∈ terms, p.map Char.toLower = t.map Char.toLower

/-- No term matches (case-insensitively) at any position inside the
fragment. -/
def noTermOcc (terms : List (List Char)) (p : List Char) : Prop :=
  ∀ i, findTerm terms (p.drop i) = none

/-- One atom of the JS regex fragment needed for the unescaped terms
considered here: a literal character, or the end-of-input anchor `$`.
A term whose only regex metacharacter is `$` compiles, via
`new RegExp(term, 'gi')`, to exactly such an atom sequence. -/
inductive RAtom where
  | lit : Char → RAtom
  | anchorEnd : RAtom

deriving instance DecidableEq for RAtom

/-- The atom sequence of a term whose only regex metacharacter is `$`:
every other character matches itself literally, `$` matches only at the
end of the input. -/
def parseSimplePattern (t : List Char) : List RAtom :=
  t.map (fun c => if c = '$' then RAtom.anchorEnd else RAtom.lit c)

/-- Match the atom sequence at the head of `text`, returning the text
remaining after the match.  Characters are compared exactly: the `'i'`
flag is immaterial because `scoreRelevance` lower-cases both the term and
the text before matching. -/
def matchAtoms : List RAtom → List Char → Option (List Char)
  | [], rest => some rest
  | RAtom.lit _ :: _, [] => none
  | RAtom.lit c :: as, d :: rest => if c = d then matchAtoms as rest else none
  | RAtom.anchorEnd :: as, rest => if rest = [] then matchAtoms as rest else none

/-- Fuel-indexed `'g'`-flagged global match count of an atom pattern:
scan left to right, try the pattern at every position, and jump past each
match (one character past a zero-width match, as `lastIndex` does).  The
fuel only forces termination; callers supply fuel exceeding the text
length. -/
def jsCountMatchesF (atoms : List RAtom) : Nat → List Char → Nat
  | 0, _ => 0
  | fuel + 1, text =>
    match matchAtoms atoms text, text with
    | some rest, _ =>
      if rest.length = text.length then
        match text with
        | [] => 1
        | _ :: t => 1 + jsCountMatchesF atoms fuel t
      else 1 + jsCountMatchesF atoms fuel rest
    | none, [] => 0
    | none, _ :: t => jsCountMatchesF atoms fuel t

/-- `text.match(new RegExp(pat, 'gi')).length` (`null` counted as `0`) for
a pattern whose only regex metacharacter is `$`.  On `regexSafe` patterns
this coincides with the literal count `countOcc`
(`jsCountMatches_eq_countOcc`). -/
def jsCountMatches (pat text : List Char) : Nat :=
  jsCountMatchesF (parseSimplePattern pat) (text.length + 1) text

/-- `termScore` with the transcript count taken by the pattern semantics
of the unescaped regex: the loop body of `scoreRelevance` for a term whose
only metacharacter is `$`. -/
def termScorePat (title desc text term : List Char) : Nat :=
  (if jsIncludes title term then 5 else 0)
  + (if jsIncludes desc term then 2 else 0)
  + min (jsCountMatches term text) 20

/-- `scoreRelevance(video, query)` with the transcript counts taken by the
pattern semantics of the unescaped `new RegExp(term, 'gi')`: the faithful
embedding on queries whose terms may contain `$` but no other regex
metacharacter.  On queries whose terms are all `regexSafe` it coincides
with `scoreRelevance` (`scoreRelevancePat_eq_scoreRelevance`). -/
def scoreRelevancePat (v : Video) (query : List Char) : Nat :=
  if query = [] then 0
  else
    (tokenize query).foldl
      (fun s term =>
        s + termScorePat (v.title.map Char.toLower) (v.description.map Char.toLower)
              (v.transcript.map Char.toLower) term) 0
    + (if jsIncludes (v.transcript.map Char.toLower) (query.map Char.toLower) then 15 else 0)
    + (if jsIncludes (v.title.map Char.toLower) (query.map Char.toLower) then 25 else 0)

/-- The fuel of `countOccF` is irrelevant once it exceeds the text length:
each recursive step consumes at least one character. -/
theorem countOccF_congr (pat : List Char) :
    ∀ n m text, List.length text < n → List.length text < m →
      countOccF pat n text = countOccF pat m text := by
  intro n
  induction n with
  | zero => intro m text h _; exact absurd h (Nat.not_lt_zero _)
  | succ n ih =>
    intro m text hn hm
    match m, text with
    | 0, text => exact absurd hm (Nat.not_lt_zero _)
    | m + 1, [] => rfl
    | m + 1, c :: cs =>
      have hcs : cs.length < n := by simp at hn; omega
      have hcs2 : cs.length < m := by simp at hm; omega
      have hd : (cs.drop (pat.length - 1)).length ≤ cs.length := by
        simp [List.length_drop]
      by_cases hp : pat.isPrefixOf (c :: cs)
      · simp only [countOccF, hp, if_true]
        rw [ih m _ (Nat.lt_of_le_of_lt hd hcs) (Nat.lt_of_le_of_lt hd hcs2)]
      · simp only [countOccF, hp, Bool.false_eq_true, if_false]
        rw [ih m cs hcs hcs2]

/-- Unfolding law of `countOcc` on a non-empty text. -/
theorem countOcc_cons (pat : List Char) (c : Char) (cs : List Char) :
    countOcc pat (c :: cs)
      = if pat.isPrefixOf (c :: cs) then 1 + countOcc pat (cs.drop (pat.length - 1))
        else countOcc pat cs := by
  show countOccF pat (cs.length + 1 + 1) (c :: cs) = _
  simp only [countOccF]
  have hd : (cs.drop (pat.length - 1)).length ≤ cs.length := by
    simpa using List.length_drop_le _ _
  by_cases hp : pat.isPrefixOf (c :: cs)
  · rw [if_pos hp, if_pos hp,
      countOccF_congr pat (cs.length + 1) ((cs.drop (pat.length - 1)).length + 1)
        (cs.drop (pat.length - 1)) (Nat.lt_of_le_of_lt hd (Nat.lt_succ_self _))
        (Nat.lt_succ_self _)]
    rfl
  · rw [if_neg hp, if_neg hp,
      countOccF_congr pat (cs.length + 1) (cs.length + 1) cs (Nat.lt_succ_self _)
        (Nat.lt_succ_self _)]
    rfl

/-- A pattern longer than the text never matches. -/
theorem countOcc_eq_zero_of_short (pat : List Char) :
    ∀ text : List Char, text.length < pat.length → countOcc pat text = 0 := by
  intro text
  induction text with
  | nil => intro _; rfl
  | cons c cs ih =>
    intro h
    have hp : ¬ pat.isPrefixOf (c :: cs) := by
      intro hp
      have := (List.isPrefixOf_iff_prefix.mp hp).length_le
      omega
    rw [countOcc_cons, if_neg hp]
    exact ih (by simp at h ⊢; omega)

/-- Appending text on the right never removes matches: the left-to-right
scan finds at least as many matches in `text ++ s` as in `text`. -/
theorem countOcc_le_append (pat s : List Char) :
    ∀ (n : Nat) (text : List Char), text.length ≤ n →
      countOcc pat text ≤ countOcc pat (text ++ s) := by
  intro n
  induction n with
  | zero =>
    intro text h
    have : text = [] := List.length_eq_zero.mp (Nat.le_zero.mp h)
    subst this
    simp [countOcc, countOccF]
  | succ n ih =>
    intro text h
    match text with
    | [] => simp [countOcc, countOccF]
    | c :: cs =>
      have hcs : cs.length ≤ n := by simpa [Nat.succ_le_succ_iff] using h
      rw [countOcc_cons, List.cons_append, countOcc_cons]
      by_cases hp : pat.isPrefixOf (c :: cs)
      · have hp2 : pat.isPrefixOf (c :: (cs ++ s)) := by
          rw [List.isPrefixOf_iff_prefix] at hp ⊢
          exact hp.trans (by simpa using List.prefix_append (c :: cs) s)
        have hlen : pat.length - 1 ≤ cs.length := by
          have := (List.isPrefixOf_iff_prefix.mp hp).length_le
          simp at this; omega
        rw [if_pos hp, if_pos hp2, List.drop_append_of_le_length hlen]
        have hdl : (cs.drop (pat.length - 1)).length ≤ n :=
          Nat.le_trans (by simpa using List.length_drop_le _ _) hcs
        exact Nat.add_le_add_left (ih _ hdl) 1
      · rw [if_neg hp]
        by_cases hq : pat.isPrefixOf (c :: (cs ++ s))
        · rw [if_pos hq]
          have hlong : cs.length < pat.length := by
            by_contra hle
            have hle2 : pat.length ≤ (c :: cs).length := by simp; omega
            have : pat <+: (c :: cs) :=
              List.prefix_of_prefix_length_le (List.isPrefixOf_iff_prefix.mp hq)
                (by simpa using List.prefix_append (c :: cs) s) hle2
            exact hp (List.isPrefixOf_iff_prefix.mpr this)
          rw [countOcc_eq_zero_of_short pat cs hlong]
          exact Nat.zero_le _
        · rw [if_neg hq]
          exact ih cs hcs

/-- `hay.includes(sub)` is preserved when the haystack grows on the right. -/
theorem jsIncludes_append (a b sub : List Char) (h : jsIncludes a sub = true) :
    jsIncludes (a ++ b) sub = true := by
  simp only [jsIncludes, decide_eq_true_eq] at h ⊢
  exact h.trans ⟨[], b, by simp⟩

/-- Summing pointwise-larger contributions from a pointwise-larger start
gives a larger `foldl` total. -/
theorem foldl_add_mono {α : Type} (f g : α → Nat) (hfg : ∀ x, f x ≤ g x) :
    ∀ (l : List α) (n m : Nat), n ≤ m →
      l.foldl (fun s x => s + f x) n ≤ l.foldl (fun s x => s + g x) m := by
  intro l
  induction l with
  | nil => intro n m h; exact h
  | cons x xs ih =>
    intro n m h
    exact ih _ _ (Nat.add_le_add h (hfg x))

/-- The per-term score never decreases when the transcript grows. -/
theorem termScore_le_append (title desc text s term : List Char) :
    termScore title desc text term ≤ termScore title desc (text ++ s) term := by
  unfold termScore
  have h1 : countOcc term text ≤ countOcc term (text ++ s) :=
    countOcc_le_append term s text.length text (Nat.le_refl _)
  have h2 : min (countOcc term text) 20 ≤ min (countOcc term (text ++ s)) 20 := by
    omega
  omega

/-- `scoreRelevance` never decreases when text is appended to the
transcript — every per-term count and the phrase bonus are monotone. -/
theorem scoreRelevance_le_append (v : Video) (q s : List Char) :
    scoreRelevance v q ≤ scoreRelevance ⟨v.title, v.description, v.transcript ++ s⟩ q := by
  unfold scoreRelevance
  by_cases hq : q = []
  · simp [hq]
  · rw [if_neg hq, if_neg hq]
    have hfold :
        (tokenize q).foldl
            (fun a term =>
              a + termScore (v.title.map Char.toLower) (v.description.map Char.toLower)
                    (v.transcript.map Char.toLower) term) 0
          ≤ (tokenize q).foldl
            (fun a term =>
              a + termScore (v.title.map Char.toLower) (v.description.map Char.toLower)
                    ((v.transcript ++ s).map Char.toLower) term) 0 := by
      have := foldl_add_mono
        (fun term => termScore (v.title.map Char.toLower) (v.description.map Char.toLower)
          (v.transcript.map Char.toLower) term)
        (fun term => termScore (v.title.map Char.toLower) (v.description.map Char.toLower)
          ((v.transcript ++ s).map Char.toLower) term)
        (fun term => by
          rw [List.map_append]
          exact termScore_le_append _ _ _ _ _)
        (tokenize q) 0 0 (Nat.le_refl 0)
      exact this
    have hbonus1 :
        (if jsIncludes (v.transcript.map Char.toLower) (q.map Char.toLower) then 15 else 0)
          ≤ (if jsIncludes ((v.transcript ++ s).map Char.toLower) (q.map Char.toLower)
              then 15 else 0) := by
      by_cases h : jsIncludes (v.transcript.map Char.toLower) (q.map Char.toLower)
      · rw [if_pos h, if_pos (by rw [List.map_append]; exact jsIncludes_append _ _ _ h)]
      · simp [h]
    dsimp only
    omega

/-- On an all-literal atom sequence, atom matching is prefix matching. -/
theorem matchAtoms_lit (p : List Char) :
    ∀ text, matchAtoms (p.map RAtom.lit) text
      = if p.isPrefixOf text then some (text.drop p.length) else none := by
  induction p with
  | nil => intro text; simp [matchAtoms]
  | cons c p ih =>
    intro text
    cases text with
    | nil => simp [matchAtoms]
    | cons d rest =>
      simp only [List.map_cons, matchAtoms, List.isPrefixOf_cons₂]
      by_cases hcd : c = d
      · subst hcd
        rw [if_pos rfl, ih rest]
        by_cases hpre : p.isPrefixOf rest
        · simp [hpre, List.drop_succ_cons]
        · simp [hpre]
      · rw [if_neg hcd]
        have hbeq : (c == d) = false := by simp [hcd]
        simp [hbeq]

/-- With the fuel in step, the pattern scan of an all-literal non-empty
pattern coincides with the literal scan. -/
theorem jsCountMatchesF_eq_countOccF (p : List Char) (hp : p ≠ []) :
    ∀ (n : Nat) (text : List Char),
      jsCountMatchesF (p.map RAtom.lit) n text = countOccF p n text := by
  obtain ⟨c0, p0, rfl⟩ : ∃ c0 p0, p = c0 :: p0 := by
    cases p with
    | nil => exact absurd rfl hp
    | cons c0 p0 => exact ⟨c0, p0, rfl⟩
  intro n
  induction n with
  | zero => intro text; rfl
  | succ n ih =>
    intro text
    cases text with
    | nil => simp [jsCountMatchesF, matchAtoms, countOccF]
    | cons d rest =>
      by_cases hpre : (c0 :: p0).isPrefixOf (d :: rest)
      · have hm : matchAtoms ((c0 :: p0).map RAtom.lit) (d :: rest)
            = some ((d :: rest).drop (c0 :: p0).length) := by
          rw [matchAtoms_lit, if_pos hpre]
        have hlen : (c0 :: p0).length ≤ (d :: rest).length :=
          (List.isPrefixOf_iff_prefix.mp hpre).length_le
        have hne : ¬ ((d :: rest).drop (c0 :: p0).length).length = (d :: rest).length := by
          simp only [List.length_drop, List.length_cons] at hlen ⊢
          omega
        have hdrop : (d :: rest).drop (c0 :: p0).length = rest.drop ((c0 :: p0).length - 1) := by
          simp [List.drop_succ_cons]
        simp only [jsCountMatchesF, countOccF, hm]
        rw [if_neg hne, if_pos hpre, hdrop, ih]
      · have hm : matchAtoms ((c0 :: p0).map RAtom.lit) (d :: rest) = none := by
          rw [matchAtoms_lit, if_neg hpre]
        simp only [jsCountMatchesF, countOccF, hm]
        rw [if_neg hpre]
        exact ih rest

/-- On a `regexSafe` non-empty pattern the unescaped-regex match count is
the literal occurrence count: such a pattern contains no `$` (nor any
other metacharacter), so it compiles to an all-literal atom sequence. -/
theorem jsCountMatches_eq_countOcc (t text : List Char) (hsafe : regexSafe t = true)
    (hne : t ≠ []) : jsCountMatches t text = countOcc t text := by
  have hmap : parseSimplePattern t = t.map RAtom.lit := by
    unfold parseSimplePattern
    apply List.map_congr_left
    intro c hc
    have hcd : c ≠ '$' := by
      intro hceq
      subst hceq
      rw [regexSafe, List.all_eq_true] at hsafe
      have h2 := hsafe _ hc
      simp at h2
    rw [if_neg hcd]
  rw [jsCountMatches, hmap, jsCountMatchesF_eq_countOccF t hne, countOcc]

/-- Folding pointwise-equal contributions gives equal totals. -/
theorem foldl_add_congr {α : Type} (f g : α → Nat) (l : List α)
    (h : ∀ x ∈ l, f x = g x) :
    ∀ n : Nat, l.foldl (fun s x => s + f x) n = l.foldl (fun s x => s + g x) n := by
  induction l with
  | nil => intro n; rfl
  | cons x xs ih =>
    intro n
    rw [List.foldl_cons, List.foldl_cons, h x (List.mem_cons_self x xs)]
    exact ih (fun y hy => h y (List.mem_cons_of_mem _ hy)) _

/-- On queries all of whose terms are `regexSafe`, the pattern-semantics
score is the literal-semantics score: the two embeddings agree on the
domain where the unescaped pattern matches its literal term. -/
theorem scoreRelevancePat_eq_scoreRelevance (v : Video) (q : List Char)
    (hsafe : ∀ u ∈ tokenize q, regexSafe u = true) :
    scoreRelevancePat v q = scoreRelevance v q := by
  unfold scoreRelevancePat scoreRelevance
  by_cases hq : q = []
  · simp [hq]
  · rw [if_neg hq, if_neg hq]
    have hterm : ∀ u ∈ tokenize q,
        termScorePat (v.title.map Char.toLower) (v.description.map Char.toLower)
            (v.transcript.map Char.toLower) u
          = termScore (v.title.map Char.toLower) (v.description.map Char.toLower)
              (v.transcript.map Char.toLower) u := by
      intro u hu
      have hlong : 1 < u.length := by
        rw [tokenize, List.mem_filter] at hu
        exact of_decide_eq_true hu.2
      have hune : u ≠ [] := by
        intro he
        subst he
        simp at hlong
      unfold termScorePat termScore
      rw [jsCountMatches_eq_countOcc u _ (hsafe u hu) hune]
    have hfold := foldl_add_congr
      (fun u => termScorePat (v.title.map Char.toLower) (v.description.map Char.toLower)
        (v.transcript.map Char.toLower) u)
      (fun u => termScore (v.title.map Char.toLower) (v.description.map Char.toLower)
        (v.transcript.map Char.toLower) u)
      (tokenize q) hterm 0
    exact congrArg₂ (· + ·) (congrArg₂ (· + ·) hfold rfl) rfl

/-- The fragments produced by the capturing split concatenate to the
pending gap followed by the remaining input, for any fuel. -/
theorem splitCaptureF_flatten (terms : List (List Char)) :
    ∀ (fuel : Nat) (acc l : List Char),
      (splitCaptureF terms fuel acc l).flatten = acc.reverse ++ l := by
  intro fuel
  induction fuel with
  | zero => intro acc l; simp [splitCaptureF]
  | succ fuel ih =>
    intro acc l
    match l with
    | [] => simp [splitCaptureF]
    | c :: cs =>
      simp only [splitCaptureF]
      cases hf : findTerm terms (c :: cs) with
      | some t =>
        simp only [List.flatten_cons, ih, List.reverse_nil, List.nil_append,
          List.take_append_drop]
      | none =>
        rw [ih]
        simp

/-- Labelling does not change the fragment texts. -/
theorem labelParts_map_text (terms : List (List Char)) :
    ∀ (ps : List (List Char)) (li : Nat),
      (labelParts terms ps li).map Span.text = ps := by
  intro ps
  induction ps with
  | nil => intro li; rfl
  | cons p ps ih => intro li; simp [labelParts, ih]

/-- C2: for every text and query, concatenating the `text` fields of the
spans returned by `highlightTerms`, in order, reproduces the input text
exactly (lossless partition). -/
theorem highlightTerms_concat_eq (text query : List Char) :
    ((highlightTerms text query).map Span.text).flatten = text := by
  unfold highlightTerms
  by_cases h1 : text = [] ∨ query = []
  · rw [if_pos h1]; simp
  · rw [if_neg h1]
    by_cases h2 : termsOf query = []
    · simp [h2]
    · simp [h2, labelParts_map_text, splitCaptureF_flatten]

/-- No non-empty term matches at the head of the empty fragment. -/
theorem findTerm_nil (terms : List (List Char)) (ht : ∀ t ∈ terms, t ≠ []) :
    findTerm terms [] = none := by
  rw [findTerm, List.find?_eq_none]
  intro t hmem
  cases t with
  | nil => exact absurd rfl (ht [] hmem)
  | cons c cs => simp

/-- A term matching at the head of `a` also matches at the head of
`a ++ b`; contrapositively, a failed search on `a ++ b` fails on `a`. -/
theorem findTerm_append_none (terms : List (List Char)) (a b : List Char)
    (h : findTerm terms (a ++ b) = none) : findTerm terms a = none := by
  rw [findTerm, List.find?_eq_none] at h ⊢
  intro t hmem hpre
  apply h t hmem
  rw [List.isPrefixOf_iff_prefix] at hpre ⊢
  rw [List.map_append]
  exact hpre.trans (List.prefix_append _ _)

/-- If no term matches at any position of `l`, the regex search on `l`
finds nothing. -/
theorem scanMatch_eq_none (terms : List (List Char)) :
    ∀ l : List Char, (∀ i, findTerm terms (l.drop i) = none) →
      scanMatch terms l = none := by
  intro l
  induction l with
  | nil => intro _; rfl
  | cons c cs ih =>
    intro h
    have h0 := h 0
    rw [List.drop_zero] at h0
    simp only [scanMatch, h0]
    rw [ih (fun i => by have hi := h (i + 1); rwa [List.drop_succ_cons] at hi)]
    rfl

/-- A fragment containing no term match does not equal any term. -/
theorem noTermOcc_not_matches (terms : List (List Char)) (p : List Char)
    (hno : noTermOcc terms p) : ¬ matchesSomeTerm terms p := by
  rintro ⟨t, hmem, heq⟩
  have h0 := hno 0
  rw [List.drop_zero, findTerm, List.find?_eq_none] at h0
  apply h0 t hmem
  rw [heq, List.isPrefixOf_iff_prefix]

/-- Every fragment produced by the capturing split either equals a term
case-insensitively (a matched delimiter) or contains no term match at all
(an unmatched gap).  The invariant on `acc` says that no term matched at
any position scanned so far. -/
theorem splitCaptureF_parts (terms : List (List Char)) (ht : ∀ t ∈ terms, t ≠ []) :
    ∀ (fuel : Nat) (acc l : List Char), l.length < fuel →
      (∀ i, i < acc.length → findTerm terms (acc.reverse.drop i ++ l) = none) →
      ∀ p ∈ splitCaptureF terms fuel acc l,
        matchesSomeTerm terms p ∨ noTermOcc terms p := by
  intro fuel
  induction fuel with
  | zero => intro acc l h _ p _; exact absurd h (Nat.not_lt_zero _)
  | succ fuel ih =>
    intro acc l hfuel hacc p hp
    match l with
    | [] =>
      simp only [splitCaptureF, List.mem_singleton] at hp
      subst hp
      right
      intro i
      by_cases hi : i < acc.length
      · have hi2 := hacc i hi
        rwa [List.append_nil] at hi2
      · rw [List.drop_eq_nil_of_le (by simp; omega)]
        exact findTerm_nil terms ht
    | c :: cs =>
      cases hf : findTerm terms (c :: cs) with
      | some t =>
        have hf2 : List.find?
            (fun u => (u.map Char.toLower).isPrefixOf ((c :: cs).map Char.toLower)) terms
              = some t := hf
        have htmem := List.mem_of_find?_eq_some hf2
        have htpre := List.find?_some hf2
        simp only at htpre
        simp only [splitCaptureF, hf, List.mem_cons] at hp
        rcases hp with hp | hp | hp
        · subst hp
          right
          intro i
          by_cases hi : i < acc.length
          · exact findTerm_append_none _ _ _ (hacc i hi)
          · rw [List.drop_eq_nil_of_le (by simp; omega)]
            exact findTerm_nil terms ht
        · subst hp
          left
          refine ⟨t, htmem, ?_⟩
          rw [List.isPrefixOf_iff_prefix] at htpre
          have heq := List.prefix_iff_eq_take.mp htpre
          rw [List.length_map] at heq
          rw [List.map_take]
          exact heq.symm
        · refine ih [] ((c :: cs).drop t.length) ?_ (fun i hi => absurd hi (by simp)) p hp
          have ht1 : t ≠ [] := ht t htmem
          have hl1 : 1 ≤ t.length := by
            cases t with
            | nil => exact absurd rfl ht1
            | cons x xs => simp
          have hlen : cs.length + 1 ≤ fuel := by
            have := Nat.lt_succ_iff.mp hfuel
            simpa using this
          simp only [List.length_drop, List.length_cons]
          omega
      | none =>
        simp only [splitCaptureF, hf] at hp
        refine ih (c :: acc) cs ?_ ?_ p hp
        · simp at hfuel ⊢; omega
        · intro i hi
          simp only [List.length_cons] at hi
          simp only [List.reverse_cons]
          by_cases hic : i < acc.length
          · rw [List.drop_append_of_le_length (by simp; omega), List.append_assoc]
            have := hacc i hic
            simpa using this
          · have hieq : i = acc.length := by omega
            subst hieq
            rw [List.drop_append_of_le_length (by simp),
              show acc.length = acc.reverse.length by simp, List.drop_length]
            simpa using hf

/-- Labelling is correct on any fragment list satisfying the
delimiter-or-gap dichotomy, for any starting `lastIndex`: a gap fragment
contains no match anywhere, so the stateful test fails on it no matter
where it starts, and the verbatim-equality safety net accepts exactly the
delimiter fragments. -/
theorem labelParts_spec (terms : List (List Char)) :
    ∀ (ps : List (List Char)) (li : Nat),
      (∀ p ∈ ps, matchesSomeTerm terms p ∨ noTermOcc terms p) →
      ∀ sp ∈ labelParts terms ps li,
        (sp.highlight = true ↔ matchesSomeTerm terms sp.text) := by
  intro ps
  induction ps with
  | nil => intro li _ sp hsp; simp [labelParts] at hsp
  | cons p ps ih =>
    intro li hps sp hsp
    simp only [labelParts, List.mem_cons] at hsp
    rcases hsp with hsp | hsp
    · subst hsp
      dsimp only
      rcases hps p (List.mem_cons_self p ps) with hm | hno
      · constructor
        · intro _; exact hm
        · intro _
          have hany : terms.any (fun t => p.map Char.toLower == t.map Char.toLower) = true := by
            rw [List.any_eq_true]
            rcases hm with ⟨t, htm, heq⟩
            exact ⟨t, htm, by rw [heq]; simp⟩
          rw [hany, Bool.or_true]
      · have hg : (gTest terms p li).1 = false := by
          have hnone : scanMatch terms (p.drop li) = none :=
            scanMatch_eq_none terms (p.drop li)
              (fun i => by rw [List.drop_drop]; exact hno (li + i))
          simp [gTest, hnone]
        have hany : terms.any (fun t => p.map Char.toLower == t.map Char.toLower) = false := by
          rw [Bool.eq_false_iff]
          intro hab
          rw [List.any_eq_true] at hab
          rcases hab with ⟨t, htm, heq⟩
          exact noTermOcc_not_matches terms p hno ⟨t, htm, by exact eq_of_beq heq⟩
        rw [hg, hany]
        constructor
        · intro hfalse; exact Bool.noConfusion hfalse
        · intro hm; exact absurd hm (noTermOcc_not_matches terms p hno)
    · exact ih _ (fun q hq => hps q (List.mem_cons_of_mem _ hq)) sp hsp

/-- C7: a span returned by `highlightTerms` is highlighted exactly when its
text case-insensitively equals some query term of length `> 1`.  The shared
`'g'`-flagged regex's mutable `lastIndex` never causes a wrong label: the
verbatim safety-net check accepts every matched delimiter fragment, and a
gap fragment contains no term match for the stateful test to find at any
starting index. -/
theorem highlightTerms_highlight_iff (text query : List Char) :
    ∀ sp ∈ highlightTerms text query,
      (sp.highlight = true ↔
        ∃ t ∈ termsOf query, sp.text.map Char.toLower = t.map Char.toLower) := by
  intro sp hsp
  have htne : ∀ t ∈ termsOf query, t ≠ [] := by
    intro t htm he
    subst he
    rw [termsOf, List.mem_filter] at htm
    simp at htm
  unfold highlightTerms at hsp
  by_cases h1 : text = [] ∨ query = []
  · rw [if_pos h1, List.mem_singleton] at hsp
    subst hsp
    dsimp only
    constructor
    · intro h; exact Bool.noConfusion h
    · rintro ⟨t, htm, heq⟩
      exfalso
      rcases h1 with h1 | h1
      · subst h1
        refine htne t htm ?_
        have heq2 := heq.symm
        simpa using heq2
      · subst h1
        rw [show termsOf ([] : List Char) = [] from rfl] at htm
        simp at htm
  · rw [if_neg h1] at hsp
    dsimp only at hsp
    by_cases h2 : termsOf query = []
    · rw [if_pos h2, List.mem_singleton] at hsp
      subst hsp
      dsimp only
      constructor
      · intro h; exact Bool.noConfusion h
      · rintro ⟨t, htm, _⟩
        rw [h2] at htm
        simp at htm
    · rw [if_neg h2] at hsp
      have hparts := splitCaptureF_parts (termsOf query) htne (text.length + 1) [] text
        (Nat.lt_succ_self _) (fun i hi => absurd hi (by simp))
      exact labelParts_spec (termsOf query) _ 0 hparts sp hsp

/-- C5: the excerpt never exceeds `350` characters plus two `3`-character
ellipsis markers. -/
theorem extractExcerpt_length_le (text query : List Char) :
    (extractExcerpt text query).length ≤ 356 := by
  unfold extractExcerpt
  by_cases h1 : text = []
  · simp [h1]
  · rw [if_neg h1]
    by_cases h2 : query = []
    · rw [if_pos h2]
      have h3 := List.length_take_le 350 text
      by_cases h4 : 350 < text.length
      · rw [if_pos h4]
        simp only [List.length_append]
        have : dots.length = 3 := rfl
        omega
      · rw [if_neg h4]
        simp only [List.length_append, List.length_nil]
        omega
    · rw [if_neg h2]
      dsimp only
      generalize (lastSpaceIdx
        (text.take (bestPos (text.map Char.toLower) (tokenize query) + 1)) + 1).toNat = start
      have hex : ((text.drop start).take 350).length ≤ 350 := List.length_take_le 350 _
      generalize hgen : (text.drop start).take 350 = ex at hex ⊢
      simp only [List.length_append]
      have l1 : (if 0 < start then dots else []).length ≤ 3 := by
        split
        · exact Nat.le_refl 3
        · exact Nat.zero_le 3
      have l2 : (if start + 350 < text.length then dots else []).length ≤ 3 := by
        split
        · exact Nat.le_refl 3
        · exact Nat.zero_le 3
      have l3 : (if 245 ≤ lastSpaceIdx ex then ex.take (lastSpaceIdx ex).toNat else ex).length
          ≤ 350 := by
        split
        · exact Nat.le_trans (List.length_take_le' _ _) hex
        · exact hex
      omega

/-- The last-space index is always below the list length. -/
theorem lastSpaceIdx_lt_length : ∀ l : List Char, lastSpaceIdx l < (l.length : Int) := by
  intro l
  induction l with
  | nil => simp [lastSpaceIdx]
  | cons c cs ih =>
    simp only [lastSpaceIdx, List.length_cons]
    by_cases h : (0 : Int) ≤ lastSpaceIdx cs
    · rw [if_pos h]
      push_cast
      omega
    · rw [if_neg h]
      by_cases hc : c = ' '
      · rw [if_pos hc]
        positivity
    
      · rw [if_neg hc]
        have : (0 : Int) ≤ (cs.length : Int) := Int.ofNat_nonneg _
        push_cast
        omega

/-- C10: on a non-empty body text of at most `100` characters, the
sliding-window loop of `extractExcerpt` runs zero iterations, so the
unadjusted best position stays `0`; when the text does not start with a
space the adjusted start is also `0` and, since no trim or marker can
apply at this length, the excerpt is the whole text with no leading
marker. -/
theorem extractExcerpt_shortText (text query : List Char)
    (h1 : text ≠ []) (h2 : text.length ≤ 100) (h3 : query ≠ [])
    (h4 : text.head? ≠ some ' ') :
    bestPos (text.map Char.toLower) (tokenize query) = 0
      ∧ extractExcerpt text query = text := by
  have hsub : (text.map Char.toLower).length - 100 = 0 := by
    rw [List.length_map]
    omega
  have hbp : bestPos (text.map Char.toLower) (tokenize query) = 0 := by
    rw [bestPos, List.length_map]
    have hcond : ¬ 0 < (text.map Char.toLower).length - 100 := by
      rw [hsub]
      omega
    simp only [bestPosF]
    rw [if_neg hcond]
  refine ⟨hbp, ?_⟩
  obtain ⟨c, cs, rfl⟩ : ∃ c cs, text = c :: cs := by
    cases text with
    | nil => exact absurd rfl h1
    | cons c cs => exact ⟨c, cs, rfl⟩
  have hc : c ≠ ' ' := by
    intro he
    exact h4 (by rw [he]; rfl)
  unfold extractExcerpt
  rw [if_neg h1, if_neg h3]
  dsimp only
  rw [hbp]
  have hlsi : lastSpaceIdx ((c :: cs).take (0 + 1)) = -1 := by
    simp [lastSpaceIdx, hc]
  rw [hlsi]
  have hstart : ((-1 : Int) + 1).toNat = 0 := rfl
  rw [hstart]
  rw [List.drop_zero]
  have htake : (c :: cs).take 350 = c :: cs := List.take_of_length_le (by omega)
  rw [htake]
  have hls : ¬ (245 : Int) ≤ lastSpaceIdx (c :: cs) := by
    have hlt := lastSpaceIdx_lt_length (c :: cs)
    have hlen : ((c :: cs).length : Int) ≤ 100 := by exact_mod_cast h2
    omega
  rw [if_neg hls]
  have hsuf : ¬ 0 + 350 < (c :: cs).length := by omega
  rw [if_neg hsuf]
  simp

/-- C9 (amended): on nonempty text and query, the result of
`extractExcerpt` is exactly the core excerpt wrapped in a leading marker
precisely when the adjusted start is nonzero and a trailing marker
precisely when the untrimmed `350`-character window stops before the end
of the text; the trailing-word trim has no influence on the trailing
marker. -/
theorem extractExcerpt_marker_shape (text query : List Char)
    (h1 : text ≠ []) (h2 : query ≠ []) :
    extractExcerpt text query
      = (if 0 < excerptStart text query then dots else [])
        ++ excerptCore text query
        ++ (if excerptStart text query + 350 < text.length then dots else []) := by
  unfold extractExcerpt excerptCore excerptStart
  rw [if_neg h1, if_neg h2]

/-- C4: the keyword ranking pipeline never returns a score-`0` document,
never returns more than `25` documents, and returns scores in
non-increasing order. -/
theorem doKeywordSearch_ranked (videos : List Video) (q : List Char) :
    ((doKeywordSearch videos q).all (fun s => 0 < s.score) = true)
      ∧ (doKeywordSearch videos q).length ≤ 25
      ∧ List.Chain' (fun a b => b.score ≤ a.score) (doKeywordSearch videos q) := by
  unfold doKeywordSearch
  refine ⟨?_, ?_, ?_⟩
  · rw [List.all_eq_true]
    intro s hs
    have hs2 := List.take_subset _ _ hs
    have hs3 := (List.mergeSort_perm _ _).mem_iff.mp hs2
    exact (List.mem_filter.mp hs3).2
  · exact List.length_take_le 25 _
  · have hpw : (List.mergeSort
        ((videos.map
            (fun v => (⟨v, scoreRelevance v q, extractExcerpt v.transcript q⟩ : Scored)))
          |>.filter (fun s => decide (0 < s.score)))
        (fun a b => decide (b.score ≤ a.score))).Pairwise
        (fun a b => decide (b.score ≤ a.score) = true) := by
      apply List.sorted_mergeSort
      · intro a b c hab hbc
        simp only [decide_eq_true_eq] at hab hbc ⊢
        omega
      · intro a b
        simp only [Bool.or_eq_true, decide_eq_true_eq]
        exact Nat.le_total b.score a.score
    have hpw2 := hpw.sublist (List.take_sublist 25 _)
    exact (hpw2.imp (fun h => of_decide_eq_true h)).chain'

set_option maxRecDepth 100000

/-- C6 (amended): for queries all of whose terms are free of regex
metacharacters, appending text to the transcript never decreases the
score, and a per-term contribution already at the `20`-occurrence cap
stays exactly at the cap.  Outside that domain the unescaped pattern of
the code does not match the literal term and monotonicity genuinely fails
(`scoreRelevancePat_append_decreases`). -/
theorem scoreRelevancePat_monotone (v : Video) (q t s : List Char)
    (hsafe : ∀ u ∈ tokenize q, regexSafe u = true) (hterm : t ∈ tokenize q) :
    scoreRelevancePat v q
        ≤ scoreRelevancePat ⟨v.title, v.description, v.transcript ++ s⟩ q
      ∧ (20 ≤ jsCountMatches t (v.transcript.map Char.toLower) →
          min (jsCountMatches t ((v.transcript ++ s).map Char.toLower)) 20
            = min (jsCountMatches t (v.transcript.map Char.toLower)) 20) := by
  have htsafe : regexSafe t = true := hsafe t hterm
  have htne : t ≠ [] := by
    have hlong : 1 < t.length := by
      rw [tokenize, List.mem_filter] at hterm
      exact of_decide_eq_true hterm.2
    intro he
    subst he
    simp at hlong
  constructor
  · rw [scoreRelevancePat_eq_scoreRelevance v q hsafe,
      scoreRelevancePat_eq_scoreRelevance ⟨v.title, v.description, v.transcript ++ s⟩ q hsafe]
    exact scoreRelevance_le_append v q s
  · intro h20
    rw [jsCountMatches_eq_countOcc t (v.transcript.map Char.toLower) htsafe htne] at h20
    rw [jsCountMatches_eq_countOcc t ((v.transcript ++ s).map Char.toLower) htsafe htne,
      jsCountMatches_eq_countOcc t (v.transcript.map Char.toLower) htsafe htne,
      List.map_append]
    have hle := countOcc_le_append t (s.map Char.toLower)
      (v.transcript.map Char.toLower).length (v.transcript.map Char.toLower) (Nat.le_refl _)
    omega

/-- C6 (counterexample): for the query `"a$"` — a valid but unescaped
pattern whose term occurs literally in the transcript `"a$a"` — the code
scores `1 + 15 = 16`; appending an extra literal occurrence of that very
term gives the transcript `"a$aa$"`, on which `/a$/gi` no longer matches
anywhere, and the score drops to `0 + 15 = 15`. -/
theorem scoreRelevancePat_append_decreases :
    (strL ("a$")) ∈ tokenize (strL ("a$"))
      ∧ jsIncludes ((strL ("a$a")).map Char.toLower) (strL ("a$")) = true
      ∧ scoreRelevancePat ⟨[], [], strL ("a$a")⟩ (strL ("a$")) = 16
      ∧ scoreRelevancePat ⟨[], [], strL ("a$a") ++ strL ("a$")⟩ (strL ("a$")) = 15 := by
  refine ⟨by decide, by decide, by decide, by decide⟩

/-- Witness for the amended C6 at a transcript of forty `'a'`s (twenty
non-overlapping matches of `"aa"`, exactly the cap) and the query
`"aa"`. -/
theorem scoreRelevancePat_monotone_witness :
    scoreRelevancePat ⟨[], [], List.replicate 40 'a'⟩ (strL ("aa"))
        ≤ scoreRelevancePat ⟨[], [], List.replicate 40 'a' ++ strL ("aa")⟩ (strL ("aa"))
      ∧ min (jsCountMatches (strL ("aa"))
            ((List.replicate 40 'a' ++ strL ("aa")).map Char.toLower)) 20
          = min (jsCountMatches (strL ("aa")) ((List.replicate 40 'a').map Char.toLower)) 20 := by
  have h := scoreRelevancePat_monotone ⟨[], [], List.replicate 40 'a'⟩ (strL ("aa"))
    (strL ("aa")) (strL ("aa")) (by decide) (by decide)
  exact ⟨h.1, h.2 (by decide)⟩

/-- C3 (counterexample): the single-character query `"a"` tokenizes to an
empty term list, yet a document whose transcript contains `"a"` scores the
`+15` exact-phrase bonus, not `0`. -/
theorem scoreRelevance_blank_query_nonzero :
    tokenize ['a'] = [] ∧ scoreRelevance ⟨[], [], ['a']⟩ ['a'] = 15 := by
  constructor
  · decide
  · decide

/-- C3 (amended): the score is `0` for the empty query; for a non-empty
query that tokenizes to an empty term list the score consists solely of
the exact-phrase bonuses, so it is `0` exactly when the lower-cased query
occurs as a substring in neither the transcript nor the title. -/
theorem scoreRelevance_no_terms (v : Video) (q : List Char)
    (ht : tokenize q = []) :
    (q = [] → scoreRelevance v q = 0)
      ∧ (q ≠ [] →
          (scoreRelevance v q = 0 ↔
            jsIncludes (v.transcript.map Char.toLower) (q.map Char.toLower) = false
              ∧ jsIncludes (v.title.map Char.toLower) (q.map Char.toLower) = false)) := by
  constructor
  · intro hq
    simp [scoreRelevance, hq]
  · intro hq
    unfold scoreRelevance
    rw [if_neg hq, ht]
    simp only [List.foldl_nil]
    cases hA : jsIncludes (v.transcript.map Char.toLower) (q.map Char.toLower) <;>
      cases hB : jsIncludes (v.title.map Char.toLower) (q.map Char.toLower) <;>
        simp

/-- Witness for the amended C3: the query `"a"` on a whitespace-free
document containing no `"a"` scores `0` by the equivalence. -/
theorem scoreRelevance_no_terms_witness :
    scoreRelevance ⟨strL ("xy"), strL ("xy"), strL ("xy")⟩ ['a'] = 0 :=
  ((scoreRelevance_no_terms ⟨strL ("xy"), strL ("xy"), strL ("xy")⟩ ['a'] (by decide)).2
    (by decide)).mpr ⟨by decide, by decide⟩

/-- C1: the two-character query `"(("` survives tokenization as the term
`"(("`, which is not regex-safe — `scoreRelevance` and `extractExcerpt`
hand it unescaped to `new RegExp`, whose construction fails on the
unterminated group, so the malformed-pattern branch is reachable. -/
theorem tokenize_keeps_unsafe_term :
    tokenize (strL ("((")) = [strL ("((")] ∧ regexSafe (strL ("((")) = false := by
  constructor
  · decide
  · decide

/-- C8: a document titled `"How I bootstrapped my SaaS to $1M"` with empty
description, whose body has exactly `3` matches of `"bootstrap"` and `5`
of `"saas"` and contains the phrase `"bootstrap saas"` in neither field,
scores exactly `18 = (5 + 5) + (3 + 5)` for the query `"bootstrap SaaS"`. -/
theorem scoreRelevance_example (body : List Char)
    (h1 : countOcc (strL ("bootstrap")) (body.map Char.toLower) = 3)
    (h2 : countOcc (strL ("saas")) (body.map Char.toLower) = 5)
    (h3 : jsIncludes (body.map Char.toLower) (strL ("bootstrap saas")) = false) :
    scoreRelevance ⟨strL ("How I bootstrapped my SaaS to $1M"), [], body⟩
      (strL ("bootstrap SaaS")) = 18 := by
  unfold scoreRelevance
  rw [if_neg (show ¬ strL ("bootstrap SaaS") = [] from by decide)]
  rw [show tokenize (strL ("bootstrap SaaS")) = [strL ("bootstrap"), strL ("saas")] from
    by decide]
  dsimp only [List.foldl]
  unfold termScore
  rw [show (strL ("bootstrap SaaS")).map Char.toLower = strL ("bootstrap saas") from by decide]
  rw [h1, h2, h3]
  rw [show jsIncludes ((strL ("How I bootstrapped my SaaS to $1M")).map Char.toLower)
      (strL ("bootstrap")) = true from by decide]
  rw [show jsIncludes ((strL ("How I bootstrapped my SaaS to $1M")).map Char.toLower)
      (strL ("saas")) = true from by decide]
  rw [show jsIncludes ((strL ("How I bootstrapped my SaaS to $1M")).map Char.toLower)
      (strL ("bootstrap saas")) = false from by decide]
  rw [show jsIncludes (([] : List Char).map Char.toLower) (strL ("bootstrap")) = false from
    by decide]
  rw [show jsIncludes (([] : List Char).map Char.toLower) (strL ("saas")) = false from
    by decide]
  norm_num

/-- Witness for C8 at a concrete body realizing the stipulated counts. -/
theorem scoreRelevance_example_witness :
    scoreRelevance ⟨strL ("How I bootstrapped my SaaS to $1M"), [],
        strL ("bootstrap x bootstrap x bootstrap x saas saas saas saas saas")⟩
      (strL ("bootstrap SaaS")) = 18 :=
  scoreRelevance_example _ (by decide) (by decide) (by decide)

/-- C9 (counterexample): a `300`-character text whose only space sits at
index `250`, with a non-matching query.  The untrimmed window reaches the
end of the text, so no trailing marker is appended, yet the trailing-word
trim cuts the excerpt at index `250`: the returned excerpt stops `50`
characters short of the end of the body text and still carries no
trailing ellipsis marker. -/
theorem extractExcerpt_trimmed_no_marker :
    extractExcerpt (List.replicate 250 'a' ++ ' ' :: List.replicate 49 'b') (strL ("zz"))
        = List.replicate 250 'a'
      ∧ dots.isSuffixOf
          (extractExcerpt (List.replicate 250 'a' ++ ' ' :: List.replicate 49 'b')
            (strL ("zz"))) = false
      ∧ (extractExcerpt (List.replicate 250 'a' ++ ' ' :: List.replicate 49 'b')
            (strL ("zz"))).length + 50
          = (List.replicate 250 'a' ++ ' ' :: List.replicate 49 'b').length := by
  refine ⟨by decide, by decide, by decide⟩

/-- Witness for the amended C9 on a short text and non-matching query. -/
theorem extractExcerpt_marker_shape_witness :
    extractExcerpt (strL ("hello world")) (strL ("zz"))
      = (if 0 < excerptStart (strL ("hello world")) (strL ("zz")) then dots else [])
        ++ excerptCore (strL ("hello world")) (strL ("zz"))
        ++ (if excerptStart (strL ("hello world")) (strL ("zz")) + 350
              < (strL ("hello world")).length then dots else []) :=
  extractExcerpt_marker_shape (strL ("hello world")) (strL ("zz")) (by decide) (by decide)

/-- Witness for C10 on the five-character text `"hello"`. -/
theorem extractExcerpt_shortText_witness :
    bestPos ((strL ("hello")).map Char.toLower) (tokenize (strL ("he"))) = 0
      ∧ extractExcerpt (strL ("hello")) (strL ("he")) = strL ("hello") :=
  extractExcerpt_shortText (strL ("hello")) (strL ("he")) (by decide) (by decide) (by decide)
    (by decide)

/-- Witness for C7: the delimiter span `"ab"` of `"x ab"` is highlighted,
and the iff instantiates at it. -/
theorem highlightTerms_highlight_iff_witness :
    (⟨strL ("ab"), true⟩ : Span) ∈ highlightTerms (strL ("x ab")) (strL ("ab"))
      ∧ ((true : Bool) = true ↔
          ∃ t ∈ termsOf (strL ("ab")),
            (strL ("ab")).map Char.toLower = t.map Char.toLower) := by
  refine ⟨by decide, ?_⟩
  exact highlightTerms_highlight_iff (strL ("x ab")) (strL ("ab")) ⟨strL ("ab"), true⟩
    (by decide)
